import Mathlib

/-!
Shallow embedding of `src/trading_bot.py` (Polymarket synthetic-bond trading
bot).  Python floats are modelled as `ℚ`; `json.loads` of a serialized field
is modelled by the `RawVal` type (absent-or-falsy, parse failure, or parsed
value); external effects (order-book fetch, order submission, wallet balance,
ledger file) are modelled as explicit inputs.  Definitions follow the source
functions line by line; theorems settle the specification claims.
-/

/-- Bot configuration constant `MIN_VOLUME = 10000` (source line 25). -/
def MIN_VOLUME : ℚ := 10000

/-- Bot configuration constant `MIN_DEPTH = 50` (source line 26). -/
def MIN_DEPTH : ℚ := 50

/-- Bot configuration constant `MAX_SPREAD = 0.05` (source line 27). -/
def MAX_SPREAD : ℚ := 0.05

/-- Bot configuration constant `MIN_YIELD = 0.01` (source line 28). -/
def MIN_YIELD : ℚ := 0.01

/-- Bot configuration constant `MIN_HOURS = 12` (source line 29). -/
def MIN_HOURS : ℚ := 12

/-- Bot configuration constant `MAX_HOURS = 48` (source line 30). -/
def MAX_HOURS : ℚ := 48

/-- Bot configuration constant `POSITION_SIZE_PCT = 0.10` (source line 31). -/
def POSITION_SIZE_PCT : ℚ := 0.10

/-- Bot configuration constant `MAX_POSITION_SIZE = 10.0` (source line 32). -/
def MAX_POSITION_SIZE : ℚ := 10.0

/-- Result of reading and converting one field of a fetched market dict:
`missing` models an absent key or falsy value (`None`, `''`, `0` where the
code tests truthiness), `malformed` models a conversion that raises
(`json.loads`, `datetime.fromisoformat`, `float`), `ok a` a successful
conversion to `a`. -/
inductive RawVal (α : Type) where
  | missing
  | malformed
  | ok (a : α)
deriving DecidableEq, Repr

/-- A market dict as consumed by the bot: `endDate` is the resolution
timestamp in seconds (successfully parsed by `fromisoformat` after the
`Z`-suffix replacement), `volume24hr` the 24-hour volume as accepted by
`float(...)`, `outcomes` and `clobTokenIds` the two serialized arrays as
decoded by `json.loads` (entries read as strings; `str(tokens[i])` is the
identity on them). -/
structure Market where
  question : String
  endDate : RawVal ℚ
  volume24hr : RawVal ℚ
  outcomes : RawVal (List String)
  clobTokenIds : RawVal (List String)
deriving DecidableEq, Repr

/-- Python `str.lower()` (ASCII case folding, which is all the outcome
labels exercise), written over the character list so that it evaluates in
the kernel. -/
def lowerStr (s : String) : String := String.mk (s.data.map Char.toLower)

/-- The `{'yes': ..., 'no': ...}` result dict of `get_token_ids`
(source line 130). -/
structure ContractRef where
  yes : Option String
  no : Option String
deriving DecidableEq, Repr

/-- The `for i, outcome in enumerate(outcomes): if i < len(tokens): ...`
loop of `get_token_ids` (source lines 142-147): walks both arrays in step
(an outcome at an index with no token is skipped by the bounds guard, which
is the same as stopping when either list ends) and assigns —
overwriting any earlier assignment — the side whose lowercased label is
exactly `yes` or `no`. -/
def assignTokens : List String → List String → ContractRef → ContractRef
  | [], _, r => r
  | _ :: _, [], r => r
  | o :: os, t :: ts, r =>
    if lowerStr o = "yes" then assignTokens os ts { r with yes := some t }
    else if lowerStr o = "no" then assignTokens os ts { r with no := some t }
    else assignTokens os ts r

/-- `get_token_ids` (source lines 129-151): starts from the all-null dict,
returns it unchanged when either serialized array is missing/falsy or fails
to parse, and otherwise runs the assignment loop. -/
def get_token_ids (m : Market) : ContractRef :=
  match m.outcomes, m.clobTokenIds with
  | RawVal.ok outcomes, RawVal.ok tokens =>
      assignTokens outcomes tokens { yes := none, no := none }
  | _, _ => { yes := none, no := none }

/-- The parsed `(outcomes, tokens)` pair when both serialized arrays parse,
`none` when either is missing or malformed. -/
def parsedArrays (m : Market) : Option (List String × List String) :=
  match m.outcomes, m.clobTokenIds with
  | RawVal.ok outcomes, RawVal.ok tokens => some (outcomes, tokens)
  | _, _ => none

/-- Body of the `for m in markets` loop of `filter_markets` (source lines
98-124) as a predicate: drop on missing/malformed `endDate`, drop unless
`MIN_HOURS <= hours <= MAX_HOURS`, then read `volume24hr` with the
`or 0` default, drop on a conversion failure, drop when
`float(vol) < MIN_VOLUME`. -/
def market_passes (now : ℚ) (m : Market) : Bool :=
  match m.endDate with
  | RawVal.ok endTs =>
      let hours := (endTs - now) / 3600
      if ¬ (MIN_HOURS ≤ hours ∧ hours ≤ MAX_HOURS) then false
      else
        match m.volume24hr with
        | RawVal.ok v => ! decide (v < MIN_VOLUME)
        | RawVal.missing => ! decide ((0 : ℚ) < MIN_VOLUME)
        | RawVal.malformed => false
  | _ => false

/-- `filter_markets` (source lines 94-126): keeps exactly the markets whose
loop body reaches `filtered.append(m)`. -/
def filter_markets (now : ℚ) (markets : List Market) : List Market :=
  markets.filter (market_passes now)

/-- The market's hours-to-resolution `(end_dt - now).total_seconds() / 3600`
(source line 106), when the timestamp is present and parses. -/
def hoursToResolution (now : ℚ) (m : Market) : Option ℚ :=
  match m.endDate with
  | RawVal.ok endTs => some ((endTs - now) / 3600)
  | _ => none

/-- The market's 24-hour volume as the code numbers it: the parsed value,
`0` for a missing/falsy field (`m.get('volume24hr') or 0`), and no value
when `float(...)` raises. -/
def parsedVolume (m : Market) : Option ℚ :=
  match m.volume24hr with
  | RawVal.ok v => some v
  | RawVal.missing => some 0
  | RawVal.malformed => none

/-- One price level of an order book, after the
`{'price': float(a.price), 'size': float(a.size)}` conversion
(source lines 161-162). -/
structure Level where
  price : ℚ
  size : ℚ
deriving DecidableEq, Repr

/-- An order book as returned by `client.get_order_book` once both sides
have been converted to price/size lists; a failed fetch, a falsy book or a
book missing either attribute is modelled as `none` at the call site. -/
structure Book where
  asks : List Level
  bids : List Level
deriving DecidableEq, Repr

/-- `min(asks, key=lambda x: x['price'])['price']` (source line 167): the
least ask price of a nonempty list, `none` on an empty one. -/
def bestAskPrice : List Level → Option ℚ
  | [] => none
  | a :: as => some (as.foldl (fun acc l => min acc l.price) a.price)

/-- `max(bids, key=lambda x: x['price'])['price']` (source line 168): the
greatest bid price of a nonempty list, `none` on an empty one. -/
def bestBidPrice : List Level → Option ℚ
  | [] => none
  | b :: bs => some (bs.foldl (fun acc l => max acc l.price) b.price)

/-- The summary dict returned by `analyze_ob` (source lines 170-175). -/
structure OBSummary where
  ask : ℚ
  bid : ℚ
  spread : ℚ
  depth : ℚ
deriving DecidableEq, Repr

/-- `analyze_ob` (source lines 154-177) on the fetched book: `none` for a
missing/malformed book or an empty side, otherwise best ask (minimum ask
price), best bid (maximum bid price), `spread = ask - bid`, and depth the
sum of bid sizes priced in `[0.90, 0.98]`.  Exceptions fetching or
converting the book degrade to `none`, folded into the `none` input case. -/
def analyze_ob : Option Book → Option OBSummary
  | none => none
  | some book =>
    match bestAskPrice book.asks, bestBidPrice book.bids with
    | some ask, some bid =>
        some { ask := ask, bid := bid, spread := ask - bid,
               depth := ((book.bids.filter
                 (fun b => decide ((0.90 : ℚ) ≤ b.price ∧ b.price ≤ 0.98))).map
                   Level.size).sum }
    | _, _ => none

/-- A persisted position record `{title, price, yield, time, order_id}`
(source lines 313-319); `yld` embeds the `'yield'` key. -/
structure Position where
  title : String
  price : ℚ
  yld : ℚ
  time : String
  order_id : String
deriving DecidableEq, Repr

/-- The positions dict of `open_positions.json`: contract id (string) to
position record, in insertion order, without duplicate keys on the paths the
bot takes. -/
abbrev Positions := List (String × Position)

/-- Python `positions[tid]` read / `tid in positions` support: value at the
first matching key. -/
def dictGet : Positions → String → Option Position
  | [], _ => none
  | kv :: rest, k => if kv.1 = k then some kv.2 else dictGet rest k

/-- Python `tid in positions`. -/
def dictContains (ps : Positions) (k : String) : Bool :=
  (dictGet ps k).isSome

/-- Python `positions[tid] = v`: replaces the value at an existing key in
place, appends a new key at the end. -/
def dictInsert : Positions → String → Position → Positions
  | [], k, v => [(k, v)]
  | kv :: rest, k, v =>
      if kv.1 = k then (k, v) :: rest else kv :: dictInsert rest k v

/-- The on-disk state `load_positions` (source lines 41-48) can find:
no file, a file `json.load` raises on, or a parsed mapping. -/
inductive LedgerFile where
  | absent
  | corrupt
  | stored (m : Positions)

/-- `load_positions` (source lines 41-48): the parsed mapping when the file
exists and parses, the empty dict when the file is absent or `json.load`
raises (the bare `except` swallows the error). -/
def load_positions : LedgerFile → Positions
  | LedgerFile.absent => []
  | LedgerFile.corrupt => []
  | LedgerFile.stored m => m

/-- A market annotated by the `find_opps` loop (source lines 204-207) with
`_tids`, `_ob`, `_yield` (`yld`) and `_price`. -/
structure Opp where
  market : Market
  tids : ContractRef
  ob : OBSummary
  yld : ℚ
  price : ℚ
deriving DecidableEq, Repr

/-- Body of the `for m in markets` loop of `find_opps` (source lines
186-208): resolve the token ids; skip when the `no` id is falsy (absent or
the empty string) or already held; fetch and summarize the book (`books`
models `client.get_order_book` per token id); skip on no summary, on
`spread > MAX_SPREAD` or `depth < MIN_DEPTH`; require the ask in
`[0.90, 0.98]` and yield `(1 - ask) / ask >= MIN_YIELD`; otherwise emit the
annotated market. -/
def opp_of_market (books : String → Option Book) (positions : Positions)
    (m : Market) : Option Opp :=
  let tids := get_token_ids m
  match tids.no with
  | none => none
  | some tid =>
    if tid = "" then none
    else if dictContains positions tid then none
    else
      match analyze_ob (books tid) with
      | none => none
      | some ob =>
        if MAX_SPREAD < ob.spread ∨ ob.depth < MIN_DEPTH then none
        else if (0.90 : ℚ) ≤ ob.ask ∧ ob.ask ≤ 0.98 then
          if MIN_YIELD ≤ (1 - ob.ask) / ob.ask then
            some { market := m, tids := tids, ob := ob,
                   yld := (1 - ob.ask) / ob.ask, price := ob.ask }
          else none
        else none

/-- One step of `opps.sort(key=lambda x: x.get('_yield', 0), reverse=True)`
(source line 210) rendered as stable insertion: an element moves past
exactly the earlier elements of strictly greater yield, so equal-yield
elements keep their original relative order, as Python's stable sort
guarantees. -/
def insertByYield (x : Opp) : List Opp → List Opp
  | [] => [x]
  | y :: ys => if x.yld < y.yld then y :: insertByYield x ys else x :: y :: ys

/-- The sort of source line 210: descending by `_yield`, stable. -/
def sortByYield : List Opp → List Opp
  | [] => []
  | x :: xs => insertByYield x (sortByYield xs)

/-- `find_opps` (source lines 180-211): the candidates the loop appends, in
catalog order, sorted by descending yield. -/
def find_opps (books : String → Option Book) (markets : List Market)
    (positions : Positions) : List Opp :=
  sortByYield (markets.filterMap (opp_of_market books positions))

/-- `place_trade` (source lines 214-237): stake is 10% of balance capped at
`MAX_POSITION_SIZE`, size is `stake / price`; below a 0.50 stake the trade
is skipped before any submission; otherwise the order goes out and `submit`
(modelling `create_order` + `post_order`, which may fail) yields the order
id or `none`. -/
def place_trade (opp : Opp) (balance : ℚ)
    (submit : Option String → ℚ → ℚ → Option String) : Option String :=
  let tid := opp.tids.no
  let price := opp.price
  let stake := min (balance * POSITION_SIZE_PCT) MAX_POSITION_SIZE
  let size := stake / price
  if stake < 0.50 then none
  else submit tid price size

/-- The record stored at `positions[tid]` after a successful trade
(source lines 313-319); `now` is the `datetime.now().isoformat()` string. -/
def mkPosition (opp : Opp) (now : String) (oid : String) : Position :=
  { title := opp.market.question, price := opp.price, yld := opp.yld,
    time := now, order_id := oid }

/-- The mutable state of `run_cycle`'s execution loop (source lines
300-322): the in-memory positions dict, the current balance, the trade
counter, the sequence of snapshots handed to `save_positions` so far, and
the stream of values the next `get_balance()` calls will return (an empty
stream reads as `0`, the value `get_balance` returns on failure). -/
structure CycleState where
  positions : Positions
  balance : ℚ
  trades : Nat
  saved : List Positions
  pending : List ℚ
deriving DecidableEq, Repr

/-- One iteration of `for opp in opps[:3]` (source lines 302-322): re-check
the ledger and skip an already-held contract; otherwise attempt the trade,
and on success store the new position, persist the whole dict at once, count
the trade and re-read the balance. -/
def execStep (submit : Option String → ℚ → ℚ → Option String) (now : String)
    (st : CycleState) (opp : Opp) : CycleState :=
  let tid := (opp.tids.no).getD ""
  if dictContains st.positions tid then st
  else
    match place_trade opp st.balance submit with
    | none => st
    | some oid =>
        let ps := dictInsert st.positions tid (mkPosition opp now oid)
        { positions := ps
          balance := st.pending.headD 0
          trades := st.trades + 1
          saved := st.saved ++ [ps]
          pending := st.pending.tail }

/-- The whole `ExecuteTop` phase of `run_cycle` (source lines 300-322):
the loop body folded over `opps[:3]`, in rank order. -/
def executeTop (submit : Option String → ℚ → ℚ → Option String)
    (now : String) (opps : List Opp) (st : CycleState) : CycleState :=
  (opps.take 3).foldl (execStep submit now) st

/-- Fixture: a market with both serialized arrays absent. -/
def marketNoArrays : Market :=
  { question := "M0", endDate := RawVal.ok 0, volume24hr := RawVal.ok 0,
    outcomes := RawVal.missing, clobTokenIds := RawVal.missing }

/-- Fixture: two outcome labels but a single contract id. -/
def marketMismatch : Market :=
  { question := "M1", endDate := RawVal.ok 0, volume24hr := RawVal.ok 0,
    outcomes := RawVal.ok ["Yes", "No"], clobTokenIds := RawVal.ok ["111"] }

/-- Fixture: two labels that both lowercase to `yes`. -/
def marketDupYes : Market :=
  { question := "M2", endDate := RawVal.ok 0, volume24hr := RawVal.ok 0,
    outcomes := RawVal.ok ["Yes", "YES"], clobTokenIds := RawVal.ok ["111", "222"] }

/-- Fixture: a crossed book (a bid above the only ask). -/
def crossedBook : Book :=
  { asks := [{ price := 0.5, size := 1 }], bids := [{ price := 0.9, size := 2 }] }

/-- Fixture: a healthy near-par book for contract `222`. -/
def book222 : Book :=
  { asks := [{ price := 0.95, size := 120 }, { price := 0.97, size := 10 }],
    bids := [{ price := 0.94, size := 100 }] }

/-- Fixture: the summary `analyze_ob` produces for `book222`. -/
def ob222 : OBSummary := { ask := 0.95, bid := 0.94, spread := 0.01, depth := 100 }

/-- Fixture: an eligible market resolving to contract `222` on the no side. -/
def market222 : Market :=
  { question := "Q222", endDate := RawVal.ok 90000, volume24hr := RawVal.ok 50000,
    outcomes := RawVal.ok ["Yes", "No"], clobTokenIds := RawVal.ok ["111", "222"] }

/-- Fixture: the order-book source knowing only contract `222`. -/
def books222 : String → Option Book :=
  fun tid => if tid = "222" then some book222 else none

/-- Fixture: the opportunity `find_opps` builds from `market222`. -/
def opp222 : Opp :=
  { market := market222, tids := { yes := some "111", no := some "222" },
    ob := ob222, yld := 1/19, price := 0.95 }

/-- Fixture: an order submission that always fills. -/
def alwaysFill : Option String → ℚ → ℚ → Option String :=
  fun _ _ _ => some "OID1"

/-- Fixture: an arbitrary persisted position record. -/
def posStub : Position :=
  { title := "P", price := 0.9, yld := 1/9, time := "t0", order_id := "o0" }

/-- Fixture: a cycle entering the execution loop with an empty ledger,
balance 50, and one further balance reading pending. -/
def stStart : CycleState :=
  { positions := [], balance := 50, trades := 0, saved := [], pending := [40] }

/-- Fixture: a cycle whose ledger already holds contract `222`. -/
def stHeld : CycleState :=
  { positions := [("222", posStub)], balance := 50, trades := 0,
    saved := [], pending := [] }

/-- The assignment loop only ever looks at index positions present in both
arrays: truncating each array to the other's length changes nothing. -/
theorem assignTokens_truncate (os : List String) : ∀ (ts : List String) (r : ContractRef),
    assignTokens os ts r = assignTokens (os.take ts.length) (ts.take os.length) r := by
  induction os with
  | nil => intro ts r; simp [assignTokens]
  | cons o os ih =>
    intro ts r
    cases ts with
    | nil => simp [assignTokens]
    | cons t ts =>
      simp only [assignTokens, List.length_cons, List.take_succ_cons]
      split_ifs <;> exact ih ts _

/-- The `yes` side the assignment loop produces is the token of the last
label (within the index range of both arrays) lowercasing to `yes`,
falling back to the accumulator. -/
theorem assignTokens_yes (os : List String) : ∀ (ts : List String) (r : ContractRef),
    (assignTokens os ts r).yes
      = (os.zip ts).foldl
          (fun acc p => if lowerStr p.1 = "yes" then some p.2 else acc) r.yes := by
  induction os with
  | nil => intro ts r; simp [assignTokens]
  | cons o os ih =>
    intro ts r
    cases ts with
    | nil => simp [assignTokens]
    | cons t ts =>
      simp only [assignTokens, List.zip_cons_cons, List.foldl_cons]
      by_cases h1 : lowerStr o = "yes"
      · simp only [if_pos h1]
        exact ih ts _
      · by_cases h2 : lowerStr o = "no"
        · simp only [if_pos h2, if_neg h1]
          exact ih ts _
        · simp only [if_neg h1, if_neg h2]
          exact ih ts _

/-- The `no` side, symmetrically: the last label lowercasing to `no`
wins. -/
theorem assignTokens_no (os : List String) : ∀ (ts : List String) (r : ContractRef),
    (assignTokens os ts r).no
      = (os.zip ts).foldl
          (fun acc p => if lowerStr p.1 = "no" then some p.2 else acc) r.no := by
  induction os with
  | nil => intro ts r; simp [assignTokens]
  | cons o os ih =>
    intro ts r
    cases ts with
    | nil => simp [assignTokens]
    | cons t ts =>
      simp only [assignTokens, List.zip_cons_cons, List.foldl_cons]
      by_cases h1 : lowerStr o = "yes"
      · have h2 : ¬ lowerStr o = "no" := by rw [h1]; decide
        simp only [if_pos h1, if_neg h2]
        exact ih ts _
      · by_cases h2 : lowerStr o = "no"
        · simp only [if_pos h2, if_neg h1]
          exact ih ts _
        · simp only [if_neg h1, if_neg h2]
          exact ih ts _

/-- C1 (counterexample): with labels `["Yes", "No"]` but the single
contract id `["111"]` — mismatched lengths — `get_token_ids` does not
return the all-null dict: it resolves the `yes` side. -/
theorem get_token_ids_length_mismatch_cex :
    get_token_ids marketMismatch = { yes := some "111", no := none } ∧
    ¬ get_token_ids marketMismatch = { yes := none, no := none } := by
  decide

/-- C1 (amended): a missing or unparseable outcome or contract-id array
yields the all-null dict; when both arrays parse but their lengths differ,
the resolver instead behaves as if each array were truncated to the other's
length, matching over the common index range. -/
theorem get_token_ids_parse_and_truncation (m : Market) :
    (parsedArrays m = none → get_token_ids m = { yes := none, no := none }) ∧
    (∀ os ts, parsedArrays m = some (os, ts) →
      get_token_ids m
        = assignTokens (os.take ts.length) (ts.take os.length)
            { yes := none, no := none }) := by
  obtain ⟨q, e, v, oc, tc⟩ := m
  constructor
  · intro h
    cases oc <;> cases tc <;>
      first
        | rfl
        | exact absurd h (by simp [parsedArrays])
  · intro os ts h
    cases oc <;> cases tc <;> simp [parsedArrays] at h
    obtain ⟨rfl, rfl⟩ := h
    exact assignTokens_truncate _ _ _

/-- C1 (witness): the amended statement evaluated at the two fixture
markets. -/
theorem get_token_ids_parse_and_truncation_witness :
    get_token_ids marketNoArrays = { yes := none, no := none } ∧
    get_token_ids marketMismatch
      = assignTokens (["Yes", "No"].take 1) (["111"].take 2)
          { yes := none, no := none } :=
  ⟨(get_token_ids_parse_and_truncation marketNoArrays).1 rfl,
   (get_token_ids_parse_and_truncation marketMismatch).2 ["Yes", "No"] ["111"] rfl⟩

/-- C2 (counterexample): with the labels `["Yes", "YES"]` both matching the
`yes` side over ids `["111", "222"]`, the resolver reports the token of the
last matching label, `222`, not the first one, `111`. -/
theorem get_token_ids_first_match_cex :
    get_token_ids marketDupYes = { yes := some "222", no := none } ∧
    ¬ get_token_ids marketDupYes = { yes := some "111", no := none } := by
  decide

/-- C2 (amended): on well-formed arrays the resolver matches labels against
`yes`/`no` case-insensitively and exactly, and when several labels match the
same side, the last matching label within the common index range determines
that side's contract id. -/
theorem get_token_ids_last_match (m : Market) (os ts : List String)
    (h : parsedArrays m = some (os, ts)) :
    (get_token_ids m).yes
      = (os.zip ts).foldl
          (fun acc p => if lowerStr p.1 = "yes" then some p.2 else acc) none ∧
    (get_token_ids m).no
      = (os.zip ts).foldl
          (fun acc p => if lowerStr p.1 = "no" then some p.2 else acc) none := by
  obtain ⟨q, e, v, oc, tc⟩ := m
  cases oc <;> cases tc <;> simp [parsedArrays] at h
  obtain ⟨rfl, rfl⟩ := h
  exact ⟨assignTokens_yes _ _ ⟨none, none⟩, assignTokens_no _ _ ⟨none, none⟩⟩

/-- C2 (witness): the amended statement evaluated at the duplicate-label
fixture market. -/
theorem get_token_ids_last_match_witness :
    (get_token_ids marketDupYes).yes
      = ((["Yes", "YES"].zip ["111", "222"]).foldl
          (fun acc p => if lowerStr p.1 = "yes" then some p.2 else acc) none) ∧
    (get_token_ids marketDupYes).no
      = ((["Yes", "YES"].zip ["111", "222"]).foldl
          (fun acc p => if lowerStr p.1 = "no" then some p.2 else acc) none) :=
  get_token_ids_last_match marketDupYes ["Yes", "YES"] ["111", "222"] rfl

/-- C8: loading the persisted ledger returns the stored mapping when it
parses, and the empty mapping — without raising — both when no file exists
and when the stored state is corrupt. -/
theorem load_positions_total_spec :
    (∀ m : Positions, load_positions (LedgerFile.stored m) = m) ∧
    load_positions LedgerFile.absent = [] ∧
    load_positions LedgerFile.corrupt = [] :=
  ⟨fun _ => rfl, rfl, rfl⟩

/-- The filter loop's predicate holds exactly when the parsed
hours-to-resolution and volume exist and clear both thresholds
inclusively. -/
theorem market_passes_iff (now : ℚ) (m : Market) :
    market_passes now m = true ↔
      (∃ hrs, hoursToResolution now m = some hrs ∧
          MIN_HOURS ≤ hrs ∧ hrs ≤ MAX_HOURS) ∧
      (∃ v, parsedVolume m = some v ∧ MIN_VOLUME ≤ v) := by
  obtain ⟨q, e, vol, oc, tc⟩ := m
  cases e with
  | missing => simp [market_passes, hoursToResolution]
  | malformed => simp [market_passes, hoursToResolution]
  | ok endTs =>
    cases vol with
    | missing =>
      by_cases hcond :
          MIN_HOURS ≤ (endTs - now) / 3600 ∧ (endTs - now) / 3600 ≤ MAX_HOURS
      · simp [market_passes, hoursToResolution, parsedVolume, hcond, MIN_VOLUME]
      · simp [market_passes, hoursToResolution, parsedVolume, hcond]
    | malformed =>
      simp [market_passes, hoursToResolution, parsedVolume]
    | ok v =>
      by_cases hcond :
          MIN_HOURS ≤ (endTs - now) / 3600 ∧ (endTs - now) / 3600 ≤ MAX_HOURS
      · simp [market_passes, hoursToResolution, parsedVolume, hcond, not_lt]
      · simp [market_passes, hoursToResolution, parsedVolume, hcond]

/-- C4: the eligibility filter admits a market exactly when its parsed
hours-to-resolution lies in `[MIN_HOURS, MAX_HOURS]` and its parsed volume
is at least `MIN_VOLUME`, both bounds inclusive; markets whose timestamp or
volume is missing or unparseable are dropped (the filter is a total
function — no exception escapes). -/
theorem filter_markets_mem_iff (now : ℚ) (ms : List Market) (m : Market) :
    m ∈ filter_markets now ms ↔
      m ∈ ms ∧
      (∃ hrs, hoursToResolution now m = some hrs ∧
          MIN_HOURS ≤ hrs ∧ hrs ≤ MAX_HOURS) ∧
      (∃ v, parsedVolume m = some v ∧ MIN_VOLUME ≤ v) := by
  rw [filter_markets, List.mem_filter, market_passes_iff]

/-- A fold of `min` over level prices returns its seed or one of the
prices. -/
theorem foldl_min_price_mem (l : List Level) : ∀ x : ℚ,
    l.foldl (fun acc lv => min acc lv.price) x = x ∨
      ∃ lv ∈ l, l.foldl (fun acc lv => min acc lv.price) x = lv.price := by
  induction l with
  | nil => intro x; exact Or.inl rfl
  | cons a l ih =>
    intro x
    rw [List.foldl_cons]
    rcases ih (min x a.price) with h | ⟨lv, hmem, heq⟩
    · rcases min_choice x a.price with hmin | hmin
      · exact Or.inl (by rw [h, hmin])
      · exact Or.inr ⟨a, List.mem_cons_self a l, by rw [h, hmin]⟩
    · exact Or.inr ⟨lv, List.mem_cons_of_mem a hmem, heq⟩

/-- A fold of `max` over level prices returns its seed or one of the
prices. -/
theorem foldl_max_price_mem (l : List Level) : ∀ x : ℚ,
    l.foldl (fun acc lv => max acc lv.price) x = x ∨
      ∃ lv ∈ l, l.foldl (fun acc lv => max acc lv.price) x = lv.price := by
  induction l with
  | nil => intro x; exact Or.inl rfl
  | cons a l ih =>
    intro x
    rw [List.foldl_cons]
    rcases ih (max x a.price) with h | ⟨lv, hmem, heq⟩
    · rcases max_choice x a.price with hmax | hmax
      · exact Or.inl (by rw [h, hmax])
      · exact Or.inr ⟨a, List.mem_cons_self a l, by rw [h, hmax]⟩
    · exact Or.inr ⟨lv, List.mem_cons_of_mem a hmem, heq⟩

/-- The best ask price is the price of one of the asks. -/
theorem bestAskPrice_mem (l : List Level) (p : ℚ) (h : bestAskPrice l = some p) :
    ∃ lv ∈ l, p = lv.price := by
  cases l with
  | nil => cases h
  | cons a as =>
    simp only [bestAskPrice, Option.some.injEq] at h
    rcases foldl_min_price_mem as a.price with h2 | ⟨lv, hmem, heq⟩
    · exact ⟨a, List.mem_cons_self a as, by rw [← h, h2]⟩
    · exact ⟨lv, List.mem_cons_of_mem a hmem, by rw [← h, heq]⟩

/-- The best bid price is the price of one of the bids. -/
theorem bestBidPrice_mem (l : List Level) (p : ℚ) (h : bestBidPrice l = some p) :
    ∃ lv ∈ l, p = lv.price := by
  cases l with
  | nil => cases h
  | cons b bs =>
    simp only [bestBidPrice, Option.some.injEq] at h
    rcases foldl_max_price_mem bs b.price with h2 | ⟨lv, hmem, heq⟩
    · exact ⟨b, List.mem_cons_self b bs, by rw [← h, h2]⟩
    · exact ⟨lv, List.mem_cons_of_mem b hmem, by rw [← h, heq]⟩

/-- C3 (counterexample): on a crossed book — a bid at 0.9 above the only
ask at 0.5 — `analyze_ob` returns a summary, and its spread is negative. -/
theorem analyze_ob_crossed_book_cex :
    analyze_ob (some crossedBook)
      = some { ask := 0.5, bid := 0.9, spread := -0.4, depth := 2 } ∧
    (-0.4 : ℚ) < 0 := by
  constructor
  · norm_num [analyze_ob, crossedBook, bestAskPrice, bestBidPrice]
  · norm_num

/-- C3 (amended): the analyzer returns no summary for an unavailable book
or one with an empty bid or ask side; the spread of any summary it does
return is best ask minus best bid, which is nonnegative whenever the book
is not crossed (no bid priced above an ask) — on a crossed book a summary
with negative spread is returned. -/
theorem analyze_ob_empty_and_uncrossed (b : Book) (s : OBSummary) :
    analyze_ob none = none ∧
    (b.asks = [] ∨ b.bids = [] → analyze_ob (some b) = none) ∧
    (analyze_ob (some b) = some s →
      (∀ a ∈ b.asks, ∀ q ∈ b.bids, q.price ≤ a.price) → 0 ≤ s.spread) := by
  refine ⟨rfl, ?_, ?_⟩
  · rintro (h | h)
    · cases hbb : bestBidPrice b.bids <;>
        simp [analyze_ob, h, hbb, bestAskPrice]
    · cases hba : bestAskPrice b.asks <;>
        simp [analyze_ob, h, hba, bestBidPrice]
  · intro hs huncross
    cases hba : bestAskPrice b.asks with
    | none => simp [analyze_ob, hba] at hs
    | some p =>
      cases hbb : bestBidPrice b.bids with
      | none => simp [analyze_ob, hba, hbb] at hs
      | some q =>
        simp only [analyze_ob, hba, hbb, Option.some.injEq] at hs
        obtain ⟨la, hla, hp⟩ := bestAskPrice_mem b.asks p hba
        obtain ⟨lb, hlb, hq⟩ := bestBidPrice_mem b.bids q hbb
        have hle : q ≤ p := by
          rw [hp, hq]
          exact huncross la hla lb hlb
        rw [← hs]
        simpa using sub_nonneg.mpr hle

/-- C3 (witness): on the uncrossed fixture book the returned spread is
nonnegative. -/
theorem analyze_ob_empty_and_uncrossed_witness : (0 : ℚ) ≤ ob222.spread :=
  (analyze_ob_empty_and_uncrossed book222 ob222).2.2
    (by norm_num [analyze_ob, book222, ob222, bestAskPrice, bestBidPrice, min_def, max_def])
    (by norm_num [book222])

/-- Insertion adds exactly the inserted element to the members. -/
theorem mem_insertByYield (x a : Opp) : ∀ l : List Opp,
    a ∈ insertByYield x l ↔ a = x ∨ a ∈ l := by
  intro l
  induction l with
  | nil => simp [insertByYield]
  | cons y ys ih =>
    by_cases h : x.yld < y.yld
    · simp only [insertByYield, if_pos h, List.mem_cons, ih]
      tauto
    · simp only [insertByYield, if_neg h, List.mem_cons]

/-- Inserting into a descending-by-yield list keeps it descending. -/
theorem pairwise_insertByYield (x : Opp) : ∀ l : List Opp,
    List.Pairwise (fun a b => b.yld ≤ a.yld) l →
    List.Pairwise (fun a b => b.yld ≤ a.yld) (insertByYield x l) := by
  intro l
  induction l with
  | nil => intro _; simp [insertByYield]
  | cons y ys ih =>
    intro hp
    rw [List.pairwise_cons] at hp
    obtain ⟨hy, hys⟩ := hp
    by_cases h : x.yld < y.yld
    · rw [insertByYield, if_pos h, List.pairwise_cons]
      refine ⟨?_, ih hys⟩
      intro z hz
      rcases (mem_insertByYield x z ys).mp hz with rfl | hz'
      · exact le_of_lt h
      · exact hy z hz'
    · rw [insertByYield, if_neg h, List.pairwise_cons]
      refine ⟨?_, List.pairwise_cons.mpr ⟨hy, hys⟩⟩
      intro z hz
      rcases List.mem_cons.mp hz with rfl | hz'
      · exact not_lt.mp h
      · exact le_trans (hy z hz') (not_lt.mp h)

/-- The sorted list is descending by yield. -/
theorem pairwise_sortByYield : ∀ l : List Opp,
    List.Pairwise (fun a b => b.yld ≤ a.yld) (sortByYield l) := by
  intro l
  induction l with
  | nil => simp [sortByYield]
  | cons x xs ih => exact pairwise_insertByYield x (sortByYield xs) ih

/-- The sort permutes and in particular preserves membership. -/
theorem mem_sortByYield (a : Opp) : ∀ l : List Opp,
    a ∈ sortByYield l ↔ a ∈ l := by
  intro l
  induction l with
  | nil => simp [sortByYield]
  | cons x xs ih =>
    rw [sortByYield, mem_insertByYield, ih, List.mem_cons]

/-- Inserting passes only strictly-greater-yield elements, so on each
equal-yield class it acts as a plain cons (when the inserted element is in
the class) or as the identity. -/
theorem filter_insertByYield (c : ℚ) (x : Opp) : ∀ l : List Opp,
    (insertByYield x l).filter (fun o => decide (o.yld = c))
      = if x.yld = c
          then x :: l.filter (fun o => decide (o.yld = c))
          else l.filter (fun o => decide (o.yld = c)) := by
  intro l
  induction l with
  | nil =>
    rw [insertByYield]
    split_ifs with hx <;> simp [List.filter, hx]
  | cons y ys ih =>
    by_cases h : x.yld < y.yld
    · rw [insertByYield, if_pos h, List.filter_cons, List.filter_cons, ih]
      by_cases hx : x.yld = c
      · have hy : ¬ y.yld = c := by
          intro he
          rw [he, ← hx] at h
          exact lt_irrefl _ h
        simp [hx, hy]
      · simp [hx]
    · rw [insertByYield, if_neg h, List.filter_cons, List.filter_cons]
      by_cases hx : x.yld = c
      · simp [hx]
      · simp [hx]

/-- Sorting does not change any equal-yield class: ties stay in input
order. -/
theorem filter_sortByYield (c : ℚ) : ∀ l : List Opp,
    (sortByYield l).filter (fun o => decide (o.yld = c))
      = l.filter (fun o => decide (o.yld = c)) := by
  intro l
  induction l with
  | nil => rfl
  | cons x xs ih =>
    rw [sortByYield, filter_insertByYield c x (sortByYield xs), List.filter_cons]
    by_cases hx : x.yld = c
    · simp [hx, ih]
    · simp [hx, ih]

/-- C6: the opportunity list is sorted by descending yield, and each class
of equal-yield opportunities appears in the same order as in the candidate
list built from the input catalog (the sort is stable). -/
theorem find_opps_sorted_and_stable (books : String → Option Book)
    (markets : List Market) (positions : Positions) (c : ℚ) :
    List.Pairwise (fun a b : Opp => b.yld ≤ a.yld)
        (find_opps books markets positions) ∧
    (find_opps books markets positions).filter (fun o => decide (o.yld = c))
      = (markets.filterMap (opp_of_market books positions)).filter
          (fun o => decide (o.yld = c)) :=
  ⟨pairwise_sortByYield _, filter_sortByYield c _⟩

/-- Whatever the ranking loop emits passed every guard: its `no` contract
id resolved to a nonempty string absent from the ledger, and its best ask
lies in the near-par band. -/
theorem opp_of_market_props (books : String → Option Book) (ps : Positions)
    (m : Market) (o : Opp) (h : opp_of_market books ps m = some o) :
    o.tids = get_token_ids m ∧
    (∃ tid, o.tids.no = some tid ∧ ¬ tid = "" ∧ dictContains ps tid = false) ∧
    (0.90 : ℚ) ≤ o.ob.ask ∧ o.ob.ask ≤ 0.98 := by
  simp only [opp_of_market] at h
  split at h
  · simp at h
  · rename_i tid hno
    split_ifs at h with h1 h2
    split at h
    · simp at h
    · rename_i ob hob
      split_ifs at h with h3 h4 h5
      obtain rfl := Option.some.inj h
      refine ⟨rfl, ⟨tid, hno, h1, ?_⟩, h4⟩
      simpa using h2

/-- C5: no returned opportunity resolves to a contract id already in the
ledger, and every returned opportunity's best ask lies in `[0.90, 0.98]`. -/
theorem find_opps_excludes_held_and_off_band (books : String → Option Book)
    (ms : List Market) (ps : Positions) (o : Opp)
    (ho : o ∈ find_opps books ms ps) :
    (∀ tid, o.tids.no = some tid → dictContains ps tid = false) ∧
    (0.90 : ℚ) ≤ o.ob.ask ∧ o.ob.ask ≤ 0.98 := by
  rw [find_opps, mem_sortByYield] at ho
  obtain ⟨m, _, hsome⟩ := List.mem_filterMap.mp ho
  obtain ⟨_, ⟨tid, htid, _, hfalse⟩, hband⟩ :=
    opp_of_market_props books ps m o hsome
  refine ⟨?_, hband⟩
  intro tid' htid'
  rw [htid'] at htid
  obtain rfl := Option.some.inj htid
  exact hfalse

/-- The fixture market resolves through every guard of the ranking loop to
the fixture opportunity. -/
theorem opp_of_market_fixture :
    opp_of_market books222 [] market222 = some opp222 := by
  have hg : get_token_ids market222
      = { yes := some "111", no := some "222" } := rfl
  have hb : books222 "222" = some book222 := rfl
  have hob : analyze_ob (some book222) = some ob222 := by
    norm_num [analyze_ob, book222, ob222, bestAskPrice, bestBidPrice,
      min_def, max_def]
  have hne : ¬ (("222" : String) = "") := by decide
  have hcont : dictContains ([] : Positions) "222" = false := rfl
  simp only [opp_of_market, hg, hb, hob, hcont]
  norm_num [hne, ob222, opp222, MAX_SPREAD, MIN_DEPTH, MIN_YIELD]

/-- The whole pipeline on the single fixture market yields exactly the
fixture opportunity. -/
theorem find_opps_fixture :
    find_opps books222 [market222] [] = [opp222] := by
  rw [find_opps, List.filterMap_cons, opp_of_market_fixture]
  rfl

/-- C5 (witness): the exclusion properties evaluated at the fixture
opportunity produced by the fixture pipeline. -/
theorem find_opps_excludes_held_and_off_band_witness :
    (∀ tid, opp222.tids.no = some tid →
      dictContains ([] : Positions) tid = false) ∧
    (0.90 : ℚ) ≤ opp222.ob.ask ∧ opp222.ob.ask ≤ 0.98 :=
  find_opps_excludes_held_and_off_band books222 [market222] [] opp222
    (by rw [find_opps_fixture]; exact List.mem_singleton.mpr rfl)

/-- C7: the executor computes stake as 10% of capital capped at
`MAX_POSITION_SIZE` and size as stake over price, skips — returning no
order and never calling the submission — exactly when the stake is below
0.50, and at the spec's sample capitals: 50 stakes 5, 200 stakes 10
(capped), 2 stakes 0.2 and is skipped. -/
theorem place_trade_stake_size_skip (opp : Opp) (balance : ℚ)
    (submit : Option String → ℚ → ℚ → Option String) :
    (min (balance * POSITION_SIZE_PCT) MAX_POSITION_SIZE < 0.50 →
      place_trade opp balance submit = none) ∧
    (0.50 ≤ min (balance * POSITION_SIZE_PCT) MAX_POSITION_SIZE →
      place_trade opp balance submit
        = submit opp.tids.no opp.price
            (min (balance * POSITION_SIZE_PCT) MAX_POSITION_SIZE / opp.price)) ∧
    min ((50 : ℚ) * POSITION_SIZE_PCT) MAX_POSITION_SIZE = 5 ∧
    min ((200 : ℚ) * POSITION_SIZE_PCT) MAX_POSITION_SIZE = 10 ∧
    min ((2 : ℚ) * POSITION_SIZE_PCT) MAX_POSITION_SIZE = 0.2 ∧
    place_trade opp 2 submit = none := by
  refine ⟨?_, ?_, ?_, ?_, ?_, ?_⟩
  · intro h
    simp only [place_trade]
    rw [if_pos h]
  · intro h
    simp only [place_trade]
    rw [if_neg (not_lt.mpr h)]
  · norm_num [POSITION_SIZE_PCT, MAX_POSITION_SIZE, min_def]
  · norm_num [POSITION_SIZE_PCT, MAX_POSITION_SIZE, min_def]
  · norm_num [POSITION_SIZE_PCT, MAX_POSITION_SIZE, min_def]
  · simp only [place_trade]
    rw [if_pos (by norm_num [POSITION_SIZE_PCT, MAX_POSITION_SIZE, min_def])]

/-- C7 (witness): at capital 2 the fixture trade is skipped. -/
theorem place_trade_stake_size_skip_witness :
    place_trade opp222 2 alwaysFill = none :=
  (place_trade_stake_size_skip opp222 2 alwaysFill).2.2.2.2.2

/-- C9: the execution phase attempts exactly the top-3 prefix of the ranked
list, in rank order, and one successful step stores the new position, hands
that very snapshot to the persistence call at once, counts the trade and
re-reads the balance before the next step. -/
theorem executeTop_top3_and_post_trade
    (submit : Option String → ℚ → ℚ → Option String) (now : String)
    (opps : List Opp) (st : CycleState) :
    executeTop submit now opps st
      = (opps.take 3).foldl (execStep submit now) st ∧
    executeTop submit now opps st = executeTop submit now (opps.take 3) st ∧
    (∀ (s : CycleState) (opp : Opp) (oid : String),
      dictContains s.positions (opp.tids.no.getD "") = false →
      place_trade opp s.balance submit = some oid →
      execStep submit now s opp =
        { positions :=
            dictInsert s.positions (opp.tids.no.getD "") (mkPosition opp now oid)
          balance := s.pending.headD 0
          trades := s.trades + 1
          saved := s.saved ++
            [dictInsert s.positions (opp.tids.no.getD "") (mkPosition opp now oid)]
          pending := s.pending.tail }) := by
  refine ⟨rfl, ?_, ?_⟩
  · rw [executeTop, executeTop, List.take_take, min_self]
  · intro s opp oid hc hp
    simp only [execStep, hc, hp]
    simp

/-- C9 (witness): one successful fixture trade from the starting state
yields exactly the updated-persisted-reread state. -/
theorem executeTop_top3_and_post_trade_witness :
    execStep alwaysFill "T1" stStart opp222 =
      { positions :=
          dictInsert stStart.positions (opp222.tids.no.getD "")
            (mkPosition opp222 "T1" "OID1")
        balance := stStart.pending.headD 0
        trades := stStart.trades + 1
        saved := stStart.saved ++
          [dictInsert stStart.positions (opp222.tids.no.getD "")
            (mkPosition opp222 "T1" "OID1")]
        pending := stStart.pending.tail } :=
  (executeTop_top3_and_post_trade alwaysFill "T1" [] stStart).2.2 stStart opp222
    "OID1" rfl
    (by simp only [place_trade]
        rw [if_neg (by norm_num [stStart, POSITION_SIZE_PCT, MAX_POSITION_SIZE,
          min_def])]
        rfl)

/-- Looking up one key is unaffected by inserting under another key. -/
theorem dictGet_dictInsert_ne (k k2 : String) (v : Position) (h : ¬ k2 = k) :
    ∀ ps : Positions, dictGet (dictInsert ps k2 v) k = dictGet ps k := by
  intro ps
  induction ps with
  | nil => simp [dictInsert, dictGet, h]
  | cons kv rest ih =>
    by_cases hk : kv.1 = k2
    · rw [dictInsert, if_pos hk, dictGet, if_neg h, dictGet, if_neg]
      rw [hk]
      exact fun he => h he
    · rw [dictInsert, if_neg hk, dictGet, dictGet]
      by_cases hkk : kv.1 = k
      · rw [if_pos hkk, if_pos hkk]
      · rw [if_neg hkk, if_neg hkk]
        exact ih

/-- A loop iteration never disturbs an entry that is already in the
ledger: either the whole step is skipped, or the trade fails, or the
insertion happens under a fresh key. -/
theorem execStep_preserves_entry
    (submit : Option String → ℚ → ℚ → Option String) (now : String)
    (st : CycleState) (opp : Opp) (tid : String) (p : Position)
    (h : dictGet st.positions tid = some p) :
    dictGet (execStep submit now st opp).positions tid = some p := by
  simp only [execStep]
  by_cases hc : dictContains st.positions (opp.tids.no.getD "") = true
  · rw [if_pos hc]
    exact h
  · rw [if_neg hc]
    cases hp : place_trade opp st.balance submit with
    | none => exact h
    | some oid =>
      have hne : ¬ (opp.tids.no.getD "") = tid := by
        intro he
        rw [he] at hc
        exact hc (by simp [dictContains, h])
      simp only []
      rw [dictGet_dictInsert_ne tid _ _ hne st.positions]
      exact h

/-- The preservation extends over the whole folded loop. -/
theorem foldl_execStep_preserves
    (submit : Option String → ℚ → ℚ → Option String) (now : String) :
    ∀ (l : List Opp) (st : CycleState) (tid : String) (p : Position),
      dictGet st.positions tid = some p →
      dictGet ((l.foldl (execStep submit now) st)).positions tid = some p := by
  intro l
  induction l with
  | nil => intro st tid p h; exact h
  | cons o l ih =>
    intro st tid p h
    rw [List.foldl_cons]
    exact ih _ tid p (execStep_preserves_entry submit now st o tid p h)

/-- C10: the loop re-checks ledger membership before each trade — a step
whose contract id is already recorded is a no-op — so an entry created (or
present) earlier in the cycle is never overwritten by a later iteration:
at most one position per contract id. -/
theorem executeTop_no_duplicate_entry
    (submit : Option String → ℚ → ℚ → Option String) (now : String) :
    (∀ (st : CycleState) (opp : Opp),
      dictContains st.positions (opp.tids.no.getD "") = true →
      execStep submit now st opp = st) ∧
    (∀ (opps : List Opp) (st : CycleState) (tid : String) (p : Position),
      dictGet st.positions tid = some p →
      dictGet (executeTop submit now opps st).positions tid = some p) := by
  constructor
  · intro st opp hc
    simp only [execStep]
    rw [if_pos hc]
  · intro opps st tid p h
    exact foldl_execStep_preserves submit now (opps.take 3) st tid p h

/-- C10 (witness): with contract `222` already held, the fixture step is a
no-op, and running the loop on a duplicated fixture opportunity leaves the
original entry intact. -/
theorem executeTop_no_duplicate_entry_witness :
    execStep alwaysFill "T2" stHeld opp222 = stHeld ∧
    dictGet (executeTop alwaysFill "T2" [opp222, opp222] stHeld).positions "222"
      = some posStub :=
  ⟨(executeTop_no_duplicate_entry alwaysFill "T2").1 stHeld opp222 rfl,
   (executeTop_no_duplicate_entry alwaysFill "T2").2 [opp222, opp222] stHeld
     "222" posStub rfl⟩
